import Mathlib

/-!
# Verification of the `fontimg` package

A shallow embedding of the original logic of the `fontimg` Go package
(`fontimg.go`): the `titleCase` name normalizer, the `breakLines` line
breaker with its size-marker protocol, the `size` template helper, the
`Font` record with its lazy one-time metadata extraction (`Font.Load`),
and the `Open` font locator with its process-wide lazily built system
font index.

Strings are modelled as `List Char` (Go strings are UTF-8 byte strings;
for valid Unicode text, byte-wise lexicographic order coincides with
code-point order, so `List Char` comparisons model Go string
comparisons faithfully).  Go's `unicode.IsUpper / IsLower / IsLetter`
classifiers are modelled as an explicit classifier record `Uni`:
theorems that quantify over all inputs are proved for every classifier
satisfying the disjointness facts that the real Unicode tables satisfy,
and concrete evaluations use `asciiUni`, the ASCII fragment of the Go
tables (the concrete inputs appearing in the specification are ASCII).
-/

/-- Classifier record standing for Go's `unicode.IsUpper`,
`unicode.IsLower` and `unicode.IsLetter` table lookups. -/
structure Uni where
  isUpper : Char → Bool
  isLower : Char → Bool
  isLetter : Char → Bool

/-- The ASCII fragment of Go's `unicode` classifiers; agrees with Go on
every ASCII character. -/
def asciiUni : Uni where
  isUpper c := 'A' ≤ c && c ≤ 'Z'
  isLower c := 'a' ≤ c && c ≤ 'z'
  isLetter c := ('A' ≤ c && c ≤ 'Z') || ('a' ≤ c && c ≤ 'z')

/-- `peek` from `fontimg.go`: returns the rune at index `i`, or the rune 0
when out of range. -/
def peek (r : List Char) (i : Nat) : Char :=
  match r.drop i with
  | [] => Char.ofNat 0
  | c :: _ => c

/-- Go's `unicode.IsSpace` (the White_Space property), written out as the
explicit finite table from the Go standard library. -/
def isSpace (c : Char) : Bool :=
  c = '\t' || c = '\n' || c = Char.ofNat 0x0b || c = Char.ofNat 0x0c ||
  c = '\r' || c = ' ' || c = Char.ofNat 0x85 || c = Char.ofNat 0xA0 ||
  c = Char.ofNat 0x1680 ||
  (Char.ofNat 0x2000 ≤ c && c ≤ Char.ofNat 0x200A) ||
  c = Char.ofNat 0x2028 || c = Char.ofNat 0x2029 ||
  c = Char.ofNat 0x202F || c = Char.ofNat 0x205F || c = Char.ofNat 0x3000

/-- The character class `\s` of Go's `regexp` package: `[\t\n\f\r ]`
(used by `spaceRE`). -/
def goWS (c : Char) : Bool :=
  c = '\t' || c = '\n' || c = Char.ofNat 0x0c || c = '\r' || c = ' '

/-- `strings.TrimSpace`: drop leading and trailing `unicode.IsSpace`
characters. -/
def trimSpace (l : List Char) : List Char :=
  ((l.dropWhile isSpace).reverse.dropWhile isSpace).reverse

/-- State machine computing `spaceRE.ReplaceAllString(s, " ")` where
`spaceRE = \s+`: every maximal run of `\s` characters is replaced by a
single space.  The flag records whether we are inside a run. -/
def collapseGo : Bool → List Char → List Char
  | _, [] => []
  | inWS, c :: rest =>
    if goWS c then
      (if inWS then collapseGo true rest else ' ' :: collapseGo true rest)
    else c :: collapseGo false rest

/-- `spaceRE.ReplaceAllString(s, " ")` from `titleCase`. -/
def collapseWS (l : List Char) : List Char := collapseGo false l

/-- The loop body of `titleCase` from `fontimg.go`, processing the
remaining runes with the previous (possibly already mutated) rune in
hand.  `peek rest 0` is exactly Go's `peek(r, i+1)`: the next rune of
the iteration, or rune 0 at the end. -/
def tcLoop (u : Uni) : Char → List Char → List Char
  | _, [] => []
  | prev, c :: rest =>
    let c' := if u.isLower prev && u.isUpper c then c
              else if u.isLetter c then c else ' '
    (if u.isLower prev && u.isUpper c then [' '] else []) ++
    (if u.isUpper prev && u.isUpper c' && u.isLower (peek rest 0) then [' '] else []) ++
    c' :: tcLoop u c' rest

/-- `titleCase` from `fontimg.go`: run the rune loop (initial `prev` is
the zero rune), then `strings.TrimSpace`, then collapse whitespace runs
with `spaceRE`. -/
def titleCase (u : Uni) (name : List Char) : List Char :=
  collapseWS (trimSpace (tcLoop u (Char.ofNat 0) name))

/-- `titleCase` on Lean `String`s. -/
def titleCaseStr (u : Uni) (s : String) : String :=
  ⟨titleCase u s.data⟩

/-- `bytes.Split(buf, []byte{'\n'})`: split on newline separators;
the empty input yields one empty piece. -/
def splitNl : List Char → List (List Char)
  | [] => [[]]
  | c :: rest =>
    if c = '\n' then [] :: splitNl rest
    else
      match splitNl rest with
      | [] => [[c]]
      | l :: ls => (c :: l) :: ls

/-- An ASCII decimal digit, the `[0-9]` class of `sizeRE`. -/
def isDigit (c : Char) : Bool := '0' ≤ c && c ≤ '9'

/-- Matching of `sizeRE = ^\x00([0-9]+)\x00(.*)$` against one line:
on success returns the two submatches (the digits and the rest of the
line).  The digit group is the maximal leading digit run; backtracking
cannot produce a shorter one because a shorter run would have to be
followed by `\x00`, yet its next character is a digit. -/
def sizeMatch (line : List Char) : Option (List Char × List Char) :=
  match line with
  | [] => none
  | c :: rest =>
    if c = Char.ofNat 0 then
      match rest.takeWhile isDigit, rest.dropWhile isDigit with
      | [], _ => none
      | _, [] => none
      | digits, d :: rest2 =>
        if d = Char.ofNat 0 then some (digits, rest2) else none
    else none

/-- Numeric value of a digit string. -/
def digitsVal (l : List Char) : Nat :=
  l.foldl (fun a c => a * 10 + (c.toNat - '0'.toNat)) 0

/-- `strconv.Atoi` restricted to the non-empty all-digit strings that
`sizeRE` can capture: the decimal value, unless it overflows the 64-bit
`int` range (in which case Go reports `ErrRange` and `breakLines` keeps
the base size). -/
def atoiDigits (l : List Char) : Option Int :=
  if digitsVal l ≤ 2 ^ 63 - 1 then some (Int.ofNat (digitsVal l)) else none

/-- `breakLines` from `fontimg.go`: split the buffer on newlines; a line
carrying a `sizeRE` marker has the marker stripped and, when the digits
parse, its size overridden; every other line keeps the base size. -/
def breakLines (buf : List Char) (size : Int) : List (List Char) × List Int :=
  let step := fun (line : List Char) =>
    match sizeMatch line with
    | some (digits, rest) => (rest, (atoiDigits digits).getD size)
    | none => (line, size)
  let pieces := (splitNl buf).map step
  (pieces.map Prod.fst, pieces.map Prod.snd)

/-- The character for a single decimal digit value. -/
def digitChar (d : Nat) : Char := Char.ofNat ('0'.toNat + d)

/-- Most-significant-first decimal rendering, with enough fuel to
consume every digit (`n + 1` always suffices since `n / 10 < n` for
`n ≥ 10`). -/
def natDecAux : Nat → Nat → List Char → List Char
  | 0, _, acc => acc
  | fuel + 1, n, acc =>
    if n < 10 then digitChar n :: acc
    else natDecAux fuel (n / 10) (digitChar (n % 10) :: acc)

/-- Decimal rendering of a natural number. -/
def natDecimal (n : Nat) : List Char := natDecAux (n + 1) n []

/-- `fmt.Sprintf("%d", n)` for a 64-bit `int` value: decimal digits,
preceded by a minus sign when negative. -/
def intDecimal (n : Int) : List Char :=
  if n < 0 then '-' :: natDecimal n.natAbs else natDecimal n.toNat

/-- The `size` helper function installed by `NewTemplate`:
`fmt.Sprintf("\x00%d\x00", size)`. -/
def sizeHelper (n : Int) : List Char :=
  Char.ofNat 0 :: intDecimal n ++ [Char.ofNat 0]

/-- Outcome of `Name.Get` on the three name-table entries `Font.Load`
reads (`NameFontFamily`, `NameFontSubfamily`, `NameSampleText`); each is
the list of matching name records, of which Go uses the first. -/
structure NameTable where
  family : List (List Char)
  subfamily : List (List Char)
  sample : List (List Char)
deriving DecidableEq

/-- Collaborator operations used by `Font.Load`: `canvas`' `LoadFont`
(from a byte buffer) and `LoadFontFile` (from a path), each either
failing with a delegated error or producing a parsed font whose name
table can be read, and `fontpkg.ParseStyle(·).String()`. -/
structure LoadWorld where
  loadBuf : List Nat → Nat → Except Nat NameTable
  loadFile : List Char → Nat → Except Nat NameTable
  parseStyle : List Char → List Char

/-- The error taxonomy of the package, one constructor per `return nil,
err` site of `Open` and `Font.Load` (delegated errors carry an opaque
numeric identity). -/
inductive Err where
  /-- `fontpkg.FindSystemFonts` failed while building the singleton. -/
  | build (e : Nat)
  /-- `unable to open directory %q`. -/
  | dirRead (name : List Char)
  /-- `unable to locate font %q`. -/
  | notFound (name : List Char)
  /-- `font.Buf and font.Path not set`. -/
  | notSet
  /-- a delegated `LoadFont` / `LoadFontFile` error, passed through. -/
  | load (e : Nat)
  /-- Go dereferences a nil `*SystemFonts` here (a previous singleton
  build failed); modelled as a distinct failure, never a success. -/
  | nilIndex
deriving DecidableEq

/-- The `Font` struct of `fontimg.go`.  `onceDone` models the state of
the record's `sync.Once` guard; the Go zero values of the string fields
are empty strings. -/
structure Font where
  Buf : Option (List Nat) := none
  Path : List Char := []
  Family : List Char := []
  Name : List Char := []
  Style : List Char := []
  SampleText : List Char := []
  onceDone : Bool := false
deriving DecidableEq

/-- `filepath.Base` (Unix separators): strip trailing slashes, keep the
part after the last slash; empty path gives `"."`, all-slash gives `"/"`. -/
def baseName (p : List Char) : List Char :=
  if p = [] then ['.']
  else
    let q := (p.reverse.dropWhile (fun c => c = '/')).reverse
    if q = [] then ['/']
    else (q.reverse.takeWhile (fun c => c ≠ '/')).reverse

/-- `filepath.Ext`: the suffix starting at the last dot of the final
path element, empty when that element has no dot. -/
def extName (p : List Char) : List Char :=
  let seg := p.reverse.takeWhile (fun c => c ≠ '/')
  let after := seg.takeWhile (fun c => c ≠ '.')
  if after.length < seg.length then '.' :: after.reverse else []

/-- `strings.TrimSuffix`. -/
def trimSuffix (s suf : List Char) : List Char :=
  if suf.isSuffixOf s then s.take (s.length - suf.length) else s

/-- `filepath.Join(dir, name)` for a cleaned directory path (no
trailing slash) and a plain directory-entry name, the only shapes the
package joins; the general `Clean` normalization is not needed then. -/
def joinPath (dir name : List Char) : List Char := dir ++ '/' :: name

/-- `New` from `fontimg.go`: a `Font` whose family is the title-cased
filename stem. -/
def New (buf : Option (List Nat)) (path : List Char) : Font :=
  { Buf := buf
    Path := path
    Family := titleCase asciiUni (trimSuffix (baseName path) (extName path)) }

/-- `fontpkg.FontMetadata`: the fields `Open`'s system-font branch
reads (`md.Style.String()` is folded into the `Style` field). -/
structure FontMetadata where
  Filename : List Char
  Family : List Char
  Style : List Char

/-- `NewFont` from `fontimg.go`: family from metadata, or the
title-cased filename stem when the metadata has none. -/
def NewFont (md : FontMetadata) : Font :=
  let family :=
    if md.Family = [] then
      titleCase asciiUni (trimSuffix (baseName md.Filename) (extName md.Filename))
    else md.Family
  { Path := md.Filename, Family := family, Style := md.Style }

/-- The `fontpkg.SystemFonts` collaborator: its `Match` operation
(`fontpkg.ParseStyle(style.String())` is folded into the style
argument). -/
structure SysFonts where
  Match : List Char → Nat → Option FontMetadata

/-- `Match` from `fontimg.go`. -/
def Match (name : List Char) (style : Nat) (sf : SysFonts) : Option Font :=
  match sf.Match name style with
  | none => none
  | some md => some (NewFont md)

/-- ASCII lowering, the fragment of `strings.ToLower` relevant to the
families this package compares (agrees with Go on ASCII characters). -/
def lowerAscii (c : Char) : Char :=
  if 'A' ≤ c && c ≤ 'Z' then Char.ofNat (c.toNat + 32) else c

/-- The simple case folding performed by a `(?i)` Go regular expression,
restricted to the letters occurring in `extRE`'s alternatives: ASCII
lowering plus the one non-ASCII fold onto those letters, latin long s
(U+017F) → `s`. -/
def foldChar (c : Char) : Char :=
  if c = Char.ofNat 0x17F then 's' else lowerAscii c

/-- `extRE.MatchString`: the pattern `(?i)\.(ttf|ttc|otf|woff|woff2|sfnt)$`
matches exactly the strings that end, after case folding, in one of the
six dotted extensions. -/
def extMatch (s : List Char) : Bool :=
  [".ttf", ".ttc", ".otf", ".woff", ".woff2", ".sfnt"].any
    (fun ext => ext.data.isSuffixOf (s.map foldChar))

/-- Go string `<`: byte-wise lexicographic comparison (code-point order
for valid Unicode text). -/
def listLT : List Char → List Char → Bool
  | [], [] => false
  | [], _ :: _ => true
  | _ :: _, [] => false
  | a :: s, b :: t => if a < b then true else if b < a then false else listLT s t

/-- The `sort.Slice` comparator of `Open`'s directory branch, as the
non-strict relation a sorted slice satisfies: `a` need not come after
`b`, i.e. `!(ToLower(b.Family) < ToLower(a.Family))`. -/
def fontLE (a b : Font) : Prop :=
  listLT (b.Family.map lowerAscii) (a.Family.map lowerAscii) = false

instance : DecidableRel fontLE := fun a b => by unfold fontLE; infer_instance

/-- The `sort.Slice` call of `Open`'s directory branch: sort by family
name, case-insensitively. -/
def sortByFamily (v : List Font) : List Font :=
  List.insertionSort fontLE v

/-- One `os.ReadDir` entry: its name and whether it is a directory. -/
structure DirEntry where
  name : List Char
  isDir : Bool

/-- The filesystem and system-font collaborators consulted by `Open`:
`os.Stat` (`none` models a stat error such as non-existence, `some b`
an existing entry with `IsDir() = b`), `os.ReadDir` on the immediate
entries of a directory, and `fontpkg.FindSystemFonts` (the singleton
build, with its error identity). -/
structure OpenWorld where
  stat : List Char → Option Bool
  readDir : List Char → Except Nat (List DirEntry)
  findSystemFonts : Except Nat SysFonts

/-- The package-level mutable state: the `once sync.Once` guard and the
`sfonts *fontpkg.SystemFonts` cache (`none` is Go `nil`). -/
structure Global where
  onceDone : Bool := false
  sfonts : Option SysFonts := none

/-- The body of `Open` after the system-font index has been resolved:
the `switch` on `os.Stat` plus the final emptiness check. -/
def openLocate (w : OpenWorld) (name : List Char) (style : Nat)
    (sysfonts : Option SysFonts) : Except Err (List Font) :=
  let v : Except Err (List Font) :=
    match w.stat name with
    | some true =>
      match w.readDir name with
      | .error _ => .error (.dirRead name)
      | .ok entries =>
        .ok (sortByFamily ((entries.filter (fun e => !e.isDir && extMatch e.name)).map
          (fun e => New none (joinPath name e.name))))
    | some false => .ok [New none name]
    | none =>
      match sysfonts with
      | none => .error .nilIndex
      | some sf =>
        match Match name style sf with
        | some font => .ok [font]
        | none => .ok []
  match v with
  | .error e => .error e
  | .ok fonts => if fonts.isEmpty then .error (.notFound name) else .ok fonts

/-- `Open` from `fontimg.go`, with the package-level state threaded
explicitly.  A `none` index argument triggers the `once.Do` lazy build:
the local `err` is set only by the call that actually runs the build,
so only that call can return the build error; afterwards the (possibly
nil) cached `sfonts` is used. -/
def Open (w : OpenWorld) (g : Global) (name : List Char) (style : Nat)
    (sysfonts0 : Option SysFonts) : Global × Except Err (List Font) :=
  match sysfonts0 with
  | some sf => (g, openLocate w name style (some sf))
  | none =>
    if g.onceDone then
      (g, openLocate w name style g.sfonts)
    else
      let g' : Global :=
        { onceDone := true
          sfonts := match w.findSystemFonts with | .ok sf => some sf | .error _ => none }
      match w.findSystemFonts with
      | .error e => (g', .error (.build e))
      | .ok _ => (g', openLocate w name style g'.sfonts)

/-- The body of `font.once.Do` in `Font.Load`: the one-time name-table
extraction, populating `Name`, `Style` (normalized through
`fontpkg.ParseStyle`) and `SampleText` when present. -/
def extractMeta (w : LoadWorld) (font : Font) (nt : NameTable) : Font :=
  if font.onceDone then font
  else
    { font with
      Name := match nt.family with | [] => font.Name | v :: _ => v
      Style := match nt.subfamily with | [] => font.Style | v :: _ => w.parseStyle v
      SampleText := match nt.sample with | [] => font.SampleText | v :: _ => v
      onceDone := true }

/-- `Font.Load` from `fontimg.go`: parse from the buffer when present,
else from the path, else fail with the malformed-input error; on
success run the guarded one-time extraction.  Besides the updated
record and the result, the model returns a ghost flag telling whether
the extraction body ran during this call. -/
def Font.Load (w : LoadWorld) (font : Font) (style : Nat) :
    Font × Except Err NameTable × Bool :=
  match font.Buf with
  | some b =>
    match w.loadBuf b style with
    | .error e => (font, .error (.load e), false)
    | .ok nt => (extractMeta w font nt, .ok nt, !font.onceDone)
  | none =>
    if font.Path = [] then (font, .error .notSet, false)
    else
      match w.loadFile font.Path style with
      | .error e => (font, .error (.load e), false)
      | .ok nt => (extractMeta w font nt, .ok nt, !font.onceDone)

/-- A sequence of `Open` calls with a nil index argument, threading the
package-level state; returns the call results in order. -/
def runOpens (w : OpenWorld) (g : Global) : List (List Char × Nat) → List (Except Err (List Font))
  | [] => []
  | (name, style) :: rest =>
    let r := Open w g name style none
    r.2 :: runOpens w r.1 rest

/-- How many times the sequence `runOpens` invokes the singleton build
(`fontpkg.FindSystemFonts` runs exactly when the guard is still
unfired). -/
def buildCount (w : OpenWorld) (g : Global) : List (List Char × Nat) → Nat
  | [] => 0
  | (name, style) :: rest =>
    (if g.onceDone then 0 else 1) + buildCount w (Open w g name style none).1 rest

theorem digitChar_isDigit {d : Nat} (h : d < 10) : isDigit (digitChar d) = true := by
  interval_cases d <;> decide

theorem natDecAux_digits {p : Char → Bool} (hp : ∀ d < 10, p (digitChar d) = true) :
    ∀ fuel n acc, (∀ c ∈ acc, p c = true) → ∀ c ∈ natDecAux fuel n acc, p c = true := by
  intro fuel
  induction fuel with
  | zero => intro n acc hacc c hc; exact hacc c hc
  | succ fuel ih =>
    intro n acc hacc c hc
    by_cases h : n < 10
    · simp only [natDecAux, if_pos h] at hc
      rcases List.mem_cons.mp hc with rfl | hc
      · exact hp n h
      · exact hacc c hc
    · simp only [natDecAux, if_neg h] at hc
      refine ih (n / 10) _ ?_ c hc
      intro c' hc'
      rcases List.mem_cons.mp hc' with rfl | hc'
      · exact hp (n % 10) (Nat.mod_lt _ (by norm_num))
      · exact hacc c' hc'

theorem natDecimal_digits (n : Nat) : ∀ c ∈ natDecimal n, isDigit c = true :=
  natDecAux_digits (fun _ hd => digitChar_isDigit hd) (n + 1) n [] (by simp)

theorem natDecAux_eq_nil {fuel n : Nat} {acc : List Char}
    (h : natDecAux fuel n acc = []) : acc = [] := by
  induction fuel generalizing n acc with
  | zero => exact h
  | succ fuel ih =>
    by_cases hn : n < 10
    · simp [natDecAux, if_pos hn] at h
    · have := @ih (n / 10) (digitChar (n % 10) :: acc)
        (by simpa [natDecAux, if_neg hn] using h)
      exact absurd this (by simp)

theorem natDecimal_ne_nil (n : Nat) : natDecimal n ≠ [] := by
  intro h
  unfold natDecimal at h
  by_cases hn : n < 10
  · simp [natDecAux, if_pos hn] at h
  · exact absurd (natDecAux_eq_nil (by simpa [natDecAux, if_neg hn] using h)) (by simp)

theorem natDecAux_val :
    ∀ fuel n acc, n < fuel → ∀ a : Nat,
      (natDecAux fuel n acc).foldl (fun a c => a * 10 + (c.toNat - '0'.toNat)) a =
      acc.foldl (fun a c => a * 10 + (c.toNat - '0'.toNat)) (a * 10 ^ (Nat.log 10 n + 1) + n) := by
  intro fuel
  induction fuel with
  | zero => intro n acc h; omega
  | succ fuel ih =>
    intro n acc h a
    by_cases hn : n < 10
    · have hlog : Nat.log 10 n = 0 := Nat.log_eq_zero_iff.mpr (Or.inl hn)
      have hd : (digitChar n).toNat - 48 = n := by
        interval_cases n <;> decide
      simp only [natDecAux, if_pos hn, hlog, List.foldl_cons, pow_one]
      rw [show '0'.toNat = 48 from rfl, hd]
      norm_num
    · have h10 : 10 ≤ n := Nat.le_of_not_lt hn
      have hdiv : n / 10 < fuel := by
        have := Nat.div_lt_self (by omega : 0 < n) (by norm_num : 1 < 10)
        omega
      have hlog : Nat.log 10 n = Nat.log 10 (n / 10) + 1 := by
        have h1 : 0 < Nat.log 10 n := Nat.log_pos (by norm_num) h10
        have := Nat.log_div_base 10 n
        omega
      have hd : (digitChar (n % 10)).toNat - 48 = n % 10 := by
        have h9 : n % 10 < 10 := Nat.mod_lt _ (by norm_num)
        interval_cases hh : n % 10 <;> decide
      rw [natDecAux, if_neg hn, ih (n / 10) _ hdiv a]
      simp only [List.foldl_cons]
      rw [show '0'.toNat = 48 from rfl, hd]
      congr 1
      rw [hlog]
      ring_nf
      omega

theorem natDecimal_val (n : Nat) : digitsVal (natDecimal n) = n := by
  unfold digitsVal natDecimal
  rw [natDecAux_val (n + 1) n [] (Nat.lt_succ_self n) 0]
  simp

/-- C1 (counterexample): contrary to the specification's example, the
code does not map "ABCWord" to "AB CWord". -/
theorem titleCase_ABCWord_ne : titleCaseStr asciiUni "ABCWord" ≠ "AB CWord" := by
  decide

/-- C1 (amended): under the acronym-boundary rule as implemented, the
space is inserted before the uppercase character that is itself
followed by a lowercase one, so `titleCase "ABCWord" = "ABC Word"`:
the split happens before the "W" that starts "Word". -/
theorem titleCase_ABCWord : titleCaseStr asciiUni "ABCWord" = "ABC Word" := by
  decide

/-- C2 (counterexample): `titleCase` never changes the case of a
letter, so the first word of `titleCase "myFontName123"` keeps its
lowercase "m"; the result is not "My Font Name". -/
theorem titleCase_myFontName_ne :
    titleCaseStr asciiUni "myFontName123" ≠ "My Font Name" := by
  decide

/-- C2 (amended): camelCase boundaries become single spaces, the
non-letter digits become spaces, whitespace runs are collapsed and the
result is trimmed, but no letter is upper-cased:
`titleCase "myFontName123" = "my Font Name"`. -/
theorem titleCase_myFontName :
    titleCaseStr asciiUni "myFontName123" = "my Font Name" := by
  decide

/-- `bytes.Split` never returns an empty list of pieces. -/
theorem splitNl_ne_nil (l : List Char) : splitNl l ≠ [] := by
  induction l with
  | nil => simp [splitNl]
  | cons c rest ih =>
    simp only [splitNl]
    split
    · simp
    · cases h : splitNl rest <;> simp

/-- C10: `breakLines` always produces at least one line: the two
returned sequences are never empty, and on an empty buffer the result
is exactly one empty line carrying the base size. -/
theorem breakLines_never_empty (buf : List Char) (size : Int) :
    (breakLines buf size).1 ≠ [] ∧ (breakLines buf size).2 ≠ [] ∧
    breakLines [] size = ([[]], [size]) := by
  refine ⟨?_, ?_, rfl⟩ <;>
    simpa [breakLines] using splitNl_ne_nil buf

theorem splitNl_cons_sep (a b : List Char) (ha : ∀ c ∈ a, c ≠ '\n') :
    splitNl (a ++ '\n' :: b) = a :: splitNl b := by
  induction a with
  | nil => simp [splitNl]
  | cons c a' ih =>
    have hc : c ≠ '\n' := ha c (by simp)
    have ih' := ih (fun c' hc' => ha c' (by simp [hc']))
    simp only [List.cons_append, splitNl, if_neg hc, List.append_eq, ih']

theorem splitNl_no_sep (l : List Char) (hl : ∀ c ∈ l, c ≠ '\n') :
    splitNl l = [l] := by
  induction l with
  | nil => rfl
  | cons c l' ih =>
    have hc : c ≠ '\n' := hl c (by simp)
    have ih' := ih (fun c' hc' => hl c' (by simp [hc']))
    simp only [splitNl, if_neg hc, ih']

theorem takeWhile_digits_append (ds r : List Char) (hds : ∀ c ∈ ds, isDigit c = true) :
    (ds ++ Char.ofNat 0 :: r).takeWhile isDigit = ds ∧
    (ds ++ Char.ofNat 0 :: r).dropWhile isDigit = Char.ofNat 0 :: r := by
  have hz : isDigit (Char.ofNat 0) = false := by decide
  induction ds with
  | nil =>
    constructor <;> simp [List.takeWhile_cons, List.dropWhile_cons, hz]
  | cons d ds' ih =>
    have hd : isDigit d = true := hds d (by simp)
    have ih' := ih (fun c hc => hds c (by simp [hc]))
    constructor <;>
      simp [List.takeWhile_cons, List.dropWhile_cons, hd, ih'.1, ih'.2]

theorem sizeMatch_marker (ds r : List Char) (hne : ds ≠ [])
    (hds : ∀ c ∈ ds, isDigit c = true) :
    sizeMatch (Char.ofNat 0 :: ds ++ Char.ofNat 0 :: r) = some (ds, r) := by
  obtain ⟨htake, hdrop⟩ := takeWhile_digits_append ds r hds
  cases ds with
  | nil => exact absurd rfl hne
  | cons d ds' =>
    show (match ((d :: ds') ++ Char.ofNat 0 :: r : List Char).takeWhile isDigit,
                ((d :: ds') ++ Char.ofNat 0 :: r : List Char).dropWhile isDigit with
      | [], _ => none
      | _, [] => none
      | digits, e :: rest2 =>
        if e = Char.ofNat 0 then some (digits, rest2) else none) = some (d :: ds', r)
    rw [htake, hdrop]
    simp

theorem sizeMatch_some_iff (line ds r : List Char) :
    sizeMatch line = some (ds, r) ↔
      (line = Char.ofNat 0 :: ds ++ Char.ofNat 0 :: r ∧ ds ≠ [] ∧
       ∀ c ∈ ds, isDigit c = true) := by
  constructor
  · intro h
    cases line with
    | nil => simp [sizeMatch] at h
    | cons c rest =>
      by_cases hc : c = Char.ofNat 0
      · subst hc
        simp only [sizeMatch] at h
        split at h
        · split at h
          · exact absurd h (by simp)
          · exact absurd h (by simp)
          · rename_i x1 x2 d rest2 hdrop htkne
            split at h
            · rename_i hd0
              simp only [Option.some.injEq, Prod.mk.injEq] at h
              obtain ⟨hds, hr⟩ := h
              subst hd0
              refine ⟨?_, ?_, ?_⟩
              · have hr2 : rest = rest.takeWhile isDigit ++ rest.dropWhile isDigit :=
                  (List.takeWhile_append_dropWhile isDigit rest).symm
                rw [hds, hdrop, hr] at hr2
                rw [hr2, List.cons_append]
              · intro hnil
                exact htkne (hds ▸ hnil)
              · intro c hc
                exact List.mem_takeWhile_imp (hds ▸ hc)
            · exact absurd h (by simp)
        · exact absurd h (by simp)
      · simp [sizeMatch, hc] at h
  · rintro ⟨rfl, hne, hds⟩
    exact sizeMatch_marker ds r hne hds

theorem breakLines_at (buf : List Char) (size : Int) (i : Nat) (line : List Char)
    (h : (splitNl buf)[i]? = some line) :
    (breakLines buf size).1[i]? =
      some (match sizeMatch line with | some (_, rest) => rest | none => line) ∧
    (breakLines buf size).2[i]? =
      some (match sizeMatch line with
            | some (digits, _) => (atoiDigits digits).getD size
            | none => size) := by
  constructor <;>
  · simp only [breakLines, List.getElem?_map, Option.map_map, h]
    cases hsm : sizeMatch line with
    | none => simp [Function.comp, hsm]
    | some p => cases p with | mk a b => simp [Function.comp, hsm]

theorem breakLines_roundTrip (N B : Int) (h0 : 0 ≤ N) (h1 : N < 2 ^ 63) :
    (breakLines (sizeHelper N ++ ("Hello\nWorld").data) B
      = ([("Hello").data, ("World").data], [N, B])) ∧
    (∀ buf size, (breakLines buf size).1.length = (breakLines buf size).2.length ∧
       (breakLines buf size).1.length = (splitNl buf).length) ∧
    (∀ (buf : List Char) (size : Int) (i : Nat) ds r,
       (splitNl buf)[i]? = some (Char.ofNat 0 :: ds ++ Char.ofNat 0 :: r) →
       ds ≠ [] → (∀ c ∈ ds, isDigit c = true) →
       (breakLines buf size).1[i]? = some r ∧
       (breakLines buf size).2[i]? =
         some (if digitsVal ds ≤ 2 ^ 63 - 1 then (digitsVal ds : Int) else size)) ∧
    (∀ (buf : List Char) (size : Int) (i : Nat) line,
       (splitNl buf)[i]? = some line →
       (∀ ds r, ¬(line = Char.ofNat 0 :: ds ++ Char.ofNat 0 :: r ∧ ds ≠ [] ∧
          ∀ c ∈ ds, isDigit c = true)) →
       (breakLines buf size).1[i]? = some line ∧
       (breakLines buf size).2[i]? = some size) := by
  refine ⟨?_, ?_, ?_, ?_⟩
  · have hdec := natDecimal_digits N.toNat
    have hne := natDecimal_ne_nil N.toNat
    have hbuf : sizeHelper N ++ ("Hello\nWorld").data =
        (Char.ofNat 0 :: natDecimal N.toNat ++ Char.ofNat 0 :: ("Hello").data)
          ++ '\n' :: ("World").data := by
      simp only [sizeHelper, intDecimal, if_neg (by omega : ¬N < 0)]
      simp [List.append_assoc]
    have hnonl : ∀ c ∈ (Char.ofNat 0 :: natDecimal N.toNat ++ Char.ofNat 0 :: ("Hello").data),
        c ≠ '\n' := by
      intro c hc
      rcases List.mem_cons.mp hc with rfl | hc
      · decide
      rcases List.mem_append.mp hc with hc | hc
      · have := hdec c hc
        intro h
        rw [h] at this
        exact absurd this (by decide)
      rcases List.mem_cons.mp hc with rfl | hc
      · decide
      · have hh : ∀ x ∈ ("Hello").data, x ≠ '\n' := by decide
        exact hh c hc
    have hsplit : splitNl (sizeHelper N ++ ("Hello\nWorld").data) =
        [Char.ofNat 0 :: natDecimal N.toNat ++ Char.ofNat 0 :: ("Hello").data,
         ("World").data] := by
      rw [hbuf, splitNl_cons_sep _ _ hnonl, splitNl_no_sep ("World").data (by decide)]
    have hmark := sizeMatch_marker (natDecimal N.toNat) ("Hello").data hne hdec
    have hval : digitsVal (natDecimal N.toNat) = N.toNat := natDecimal_val N.toNat
    have hw : sizeMatch ("World").data = none := by decide
    simp only [breakLines, hsplit, List.map_cons, List.map_nil, hmark, hw, atoiDigits, hval]
    rw [if_pos (by omega : N.toNat ≤ 2 ^ 63 - 1)]
    simp [Int.toNat_of_nonneg h0]
  · intro buf size
    simp [breakLines]
  · intro buf size i ds r h hne hds
    obtain ⟨g1, g2⟩ := breakLines_at buf size i _ h
    have hsm := sizeMatch_marker ds r hne hds
    rw [hsm] at g1 g2
    refine ⟨g1, ?_⟩
    rw [g2]
    simp only [atoiDigits]
    split <;> simp
  · intro buf size i line h hno
    obtain ⟨g1, g2⟩ := breakLines_at buf size i _ h
    have hsm : sizeMatch line = none := by
      cases hsm : sizeMatch line with
      | none => rfl
      | some p =>
        obtain ⟨ds, r⟩ := p
        have := (sizeMatch_some_iff line ds r).mp hsm
        exact absurd this (hno ds r)
    rw [hsm] at g1 g2
    exact ⟨g1, g2⟩

theorem breakLines_negative_size :
    breakLines (sizeHelper (-1) ++ ("Hello\nWorld").data) 14 =
      ([(String.mk (sizeHelper (-1)) ++ "Hello").data, ("World").data], [14, 14]) ∧
    breakLines (sizeHelper (-1) ++ ("Hello\nWorld").data) 14 ≠
      ([("Hello").data, ("World").data], [-1, 14]) := by
  constructor <;> decide

theorem breakLines_roundTrip_witness :
    (0 ≤ (48 : Int)) ∧ ((48 : Int) < 2 ^ 63) ∧
    breakLines (sizeHelper 48 ++ ("Hello\nWorld").data) 14
      = ([("Hello").data, ("World").data], [48, 14]) :=
  ⟨by decide, by norm_num, (breakLines_roundTrip 48 14 (by decide) (by norm_num)).1⟩

theorem Font.Load_shape (w : LoadWorld) (f : Font) (s : Nat) :
    (∃ e, Font.Load w f s = (f, Except.error e, false)) ∨
    (∃ nt, Font.Load w f s = (extractMeta w f nt, Except.ok nt, !f.onceDone)) := by
  rcases hb : f.Buf with _ | b
  · by_cases hp : f.Path = []
    · exact Or.inl ⟨Err.notSet, by simp [Font.Load, hb, hp]⟩
    · rcases hw : w.loadFile f.Path s with e | nt
      · exact Or.inl ⟨Err.load e, by simp [Font.Load, hb, hp, hw]⟩
      · exact Or.inr ⟨nt, by simp [Font.Load, hb, hp, hw]⟩
  · rcases hw : w.loadBuf b s with e | nt
    · exact Or.inl ⟨Err.load e, by simp [Font.Load, hb, hw]⟩
    · exact Or.inr ⟨nt, by simp [Font.Load, hb, hw]⟩

theorem extractMeta_onceDone (w : LoadWorld) (f : Font) (nt : NameTable) :
    (extractMeta w f nt).onceDone = true := by
  unfold extractMeta
  by_cases h : f.onceDone <;> simp [h]

theorem extractMeta_of_onceDone (w : LoadWorld) (f : Font) (nt : NameTable)
    (h : f.onceDone = true) : extractMeta w f nt = f := by
  unfold extractMeta
  rw [if_pos h]

/-- C6: the one-time metadata extraction is idempotent: the extraction
body runs during at most one of any two consecutive `Load` calls, it
runs exactly when the call succeeds while the guard is unfired, and
after a successful first call a second call (with any collaborator and
style) leaves `Name`, `Style` and `SampleText` unchanged. -/
theorem Load_metadata_once (w1 w2 : LoadWorld) (f : Font) (s1 s2 : Nat) :
    ¬((Font.Load w1 f s1).2.2 = true ∧
      (Font.Load w2 (Font.Load w1 f s1).1 s2).2.2 = true) ∧
    ((Font.Load w1 f s1).2.2 = true ↔
      (∃ nt, (Font.Load w1 f s1).2.1 = Except.ok nt) ∧ f.onceDone = false) ∧
    (∀ nt, (Font.Load w1 f s1).2.1 = Except.ok nt →
      ((Font.Load w2 (Font.Load w1 f s1).1 s2).1.Name = (Font.Load w1 f s1).1.Name ∧
       (Font.Load w2 (Font.Load w1 f s1).1 s2).1.Style = (Font.Load w1 f s1).1.Style ∧
       (Font.Load w2 (Font.Load w1 f s1).1 s2).1.SampleText =
         (Font.Load w1 f s1).1.SampleText)) := by
  have key : ∀ (w : LoadWorld) (g : Font) (s : Nat), g.onceDone = true →
      (Font.Load w g s).1 = g ∧ (Font.Load w g s).2.2 = false := by
    intro w g s hg
    rcases Font.Load_shape w g s with ⟨e, he⟩ | ⟨nt, he⟩
    · rw [he]; exact ⟨rfl, rfl⟩
    · rw [he]
      exact ⟨extractMeta_of_onceDone w g nt hg, by simp [hg]⟩
  refine ⟨?_, ?_, ?_⟩
  · rintro ⟨h1, h2⟩
    rcases Font.Load_shape w1 f s1 with ⟨e, he⟩ | ⟨nt, he⟩
    · rw [he] at h1
      exact absurd h1 (by simp)
    · rw [he] at h1 h2
      have hdone : (extractMeta w1 f nt).onceDone = true := extractMeta_onceDone w1 f nt
      have := (key w2 _ s2 hdone).2
      simp only at h2
      rw [this] at h2
      exact absurd h2 (by simp)
  · rcases Font.Load_shape w1 f s1 with ⟨e, he⟩ | ⟨nt, he⟩
    · rw [he]
      simp
    · rw [he]
      simp
  · intro nt hok
    rcases Font.Load_shape w1 f s1 with ⟨e, he⟩ | ⟨nt', he⟩
    · rw [he] at hok
      exact absurd hok (by simp)
    · rw [he] at hok ⊢
      have hdone : (extractMeta w1 f nt').onceDone = true := extractMeta_onceDone w1 f nt'
      have := (key w2 _ s2 hdone).1
      simp only at this ⊢
      rw [this]
      exact ⟨rfl, rfl, rfl⟩

/-- C6 witness: a concrete world whose parse succeeds; the first call
extracts, the second leaves the resolved fields unchanged. -/
theorem Load_metadata_once_witness :
    (Font.Load ⟨fun _ _ => Except.ok ⟨[["F".data.head!]], [], []⟩, fun _ _ => Except.error 0, id⟩
        { Buf := some [1] } 0).2.1 =
      Except.ok ⟨[["F".data.head!]], [], []⟩ ∧
    ((Font.Load ⟨fun _ _ => Except.ok ⟨[["F".data.head!]], [], []⟩, fun _ _ => Except.error 0, id⟩
        ((Font.Load ⟨fun _ _ => Except.ok ⟨[["F".data.head!]], [], []⟩, fun _ _ => Except.error 0, id⟩
          { Buf := some [1] } 0).1) 0).1.Name =
      (Font.Load ⟨fun _ _ => Except.ok ⟨[["F".data.head!]], [], []⟩, fun _ _ => Except.error 0, id⟩
        { Buf := some [1] } 0).1.Name) :=
  ⟨rfl,
   ((Load_metadata_once
      ⟨fun _ _ => Except.ok ⟨[["F".data.head!]], [], []⟩, fun _ _ => Except.error 0, id⟩
      ⟨fun _ _ => Except.ok ⟨[["F".data.head!]], [], []⟩, fun _ _ => Except.error 0, id⟩
      { Buf := some [1] } 0 0).2.2 ⟨[["F".data.head!]], [], []⟩ rfl).1⟩

/-- C7: a `Font` with neither buffer nor path fails to load with the
malformed-input error and is left completely unchanged; when the
buffer is present the load consults only the buffer collaborator, and
when only the path is present it consults only the file collaborator. -/
theorem Load_source_selection (w w' : LoadWorld) (font : Font) (style : Nat) :
    (font.Buf = none → font.Path = [] →
       Font.Load w font style = (font, Except.error Err.notSet, false)) ∧
    (∀ b, font.Buf = some b → w.loadBuf = w'.loadBuf → w.parseStyle = w'.parseStyle →
       Font.Load w font style = Font.Load w' font style) ∧
    (font.Buf = none → font.Path ≠ [] → w.loadFile = w'.loadFile →
       w.parseStyle = w'.parseStyle →
       Font.Load w font style = Font.Load w' font style) := by
  refine ⟨?_, ?_, ?_⟩
  · intro hb hp
    simp [Font.Load, hb, hp]
  · intro b hb hbuf hps
    rcases hw : w'.loadBuf b style with e | nt
    · simp [Font.Load, hb, hbuf, hw]
    · simp [Font.Load, hb, hbuf, hw, extractMeta, hps]
  · intro hb hp hfile hps
    rcases hw : w'.loadFile font.Path style with e | nt
    · simp [Font.Load, hb, hp, hfile, hw]
    · simp [Font.Load, hb, hp, hfile, hw, extractMeta, hps]

/-- C7 witness: the default record (no buffer, empty path) fails with
the malformed-input error and is unchanged. -/
theorem Load_source_selection_witness :
    Font.Load ⟨fun _ _ => Except.error 0, fun _ _ => Except.error 0, id⟩ {} 0 =
      ({}, Except.error Err.notSet, false) :=
  (Load_source_selection ⟨fun _ _ => Except.error 0, fun _ _ => Except.error 0, id⟩
    ⟨fun _ _ => Except.error 0, fun _ _ => Except.error 0, id⟩ {} 0).1 rfl rfl

theorem openLocate_ok_ne_nil (w : OpenWorld) (n : List Char) (s : Nat)
    (so : Option SysFonts) (v : List Font) (h : openLocate w n s so = Except.ok v) :
    v ≠ [] := by
  simp only [openLocate] at h
  split at h
  · exact absurd h (by simp)
  · rename_i fonts
    split at h
    · exact absurd h (by simp)
    · rename_i hne
      injection h with h1
      subst h1
      simpa using hne

/-- C8: `Open` never succeeds with an empty collection, and when the
name is neither an existing file nor a directory and the index has no
match, it fails with the not-found error naming the font. -/
theorem Open_never_empty (w : OpenWorld) (g : Global) (name : List Char) (style : Nat)
    (sfopt : Option SysFonts) (sf : SysFonts) :
    (∀ v, (Open w g name style sfopt).2 = Except.ok v → v ≠ []) ∧
    (w.stat name = none → sf.Match name style = none →
      (Open w g name style (some sf)).2 = Except.error (Err.notFound name)) := by
  constructor
  · intro v h
    cases sfopt with
    | some sf' =>
      simp only [Open] at h
      exact openLocate_ok_ne_nil w name style (some sf') v h
    | none =>
      by_cases hg : g.onceDone
      · simp only [Open, if_pos hg] at h
        exact openLocate_ok_ne_nil w name style g.sfonts v h
      · simp only [Open, if_neg hg] at h
        cases hfind : w.findSystemFonts with
        | error e =>
          rw [hfind] at h
          exact absurd (h : Except.error (Err.build e) = Except.ok v) (by simp)
        | ok sf' =>
          rw [hfind] at h
          exact openLocate_ok_ne_nil w name style (some sf') v (by exact h)
  · intro hstat hmatch
    simp [Open, openLocate, Match, hstat, hmatch]

/-- C8 witness: a world where the name resolves nowhere produces the
not-found error. -/
theorem Open_never_empty_witness :
    (Open ⟨fun _ => none, fun _ => Except.error 0, Except.error 0⟩ {} ("nosuch").data 0
      (some ⟨fun _ _ => none⟩)).2 = Except.error (Err.notFound ("nosuch").data) :=
  (Open_never_empty ⟨fun _ => none, fun _ => Except.error 0, Except.error 0⟩ {}
    ("nosuch").data 0 (some ⟨fun _ _ => none⟩) ⟨fun _ _ => none⟩).2 rfl rfl

theorem openLocate_ne_build (w : OpenWorld) (n : List Char) (s : Nat)
    (so : Option SysFonts) (e : Nat) :
    openLocate w n s so ≠ Except.error (Err.build e) := by
  rcases hs : w.stat n with _ | b
  · rcases so with _ | sf
    · simp [openLocate, hs]
    · rcases hm : Match n s sf with _ | font
      · simp [openLocate, hs, hm]
    
      · simp [openLocate, hs, hm]
  · cases b
    · simp [openLocate, hs]
    · rcases hd : w.readDir n with e' | entries
      · simp [openLocate, hs, hd]
      · simp only [openLocate, hs, hd]
        split <;> simp

theorem Open_onceDone (w : OpenWorld) (g : Global) (n : List Char) (s : Nat) :
    (Open w g n s none).1.onceDone = true := by
  by_cases hg : g.onceDone
  · simp [Open, hg]
  · simp only [Open, if_neg hg]
    cases w.findSystemFonts <;> simp

theorem Open_preserve (w : OpenWorld) (g : Global) (n : List Char) (s : Nat)
    (sfopt : Option SysFonts) (hg : g.onceDone = true) : (Open w g n s sfopt).1 = g := by
  cases sfopt <;> simp [Open, hg]

theorem Open_no_build (w : OpenWorld) (g : Global) (n : List Char) (s : Nat)
    (sfopt : Option SysFonts) (e : Nat) (hg : g.onceDone = true) :
    (Open w g n s sfopt).2 ≠ Except.error (Err.build e) := by
  cases sfopt with
  | some sf =>
    simp only [Open]
    exact openLocate_ne_build w n s (some sf) e
  | none =>
    simp only [Open, if_pos hg]
    exact openLocate_ne_build w n s g.sfonts e

theorem buildCount_of_done (w : OpenWorld) (calls : List (List Char × Nat)) :
    ∀ g : Global, g.onceDone = true → buildCount w g calls = 0 := by
  induction calls with
  | nil => intro g hg; rfl
  | cons c rest ih =>
    intro g hg
    obtain ⟨n, s⟩ := c
    simp only [buildCount, hg, if_pos]
    rw [ih _ (by rw [Open_preserve w g n s none hg]; exact hg)]

theorem runOpens_no_build (w : OpenWorld) (calls : List (List Char × Nat)) (e : Nat) :
    ∀ g : Global, g.onceDone = true → ∀ (i : Nat) (r : Except Err (List Font)),
      (runOpens w g calls)[i]? = some r → r ≠ Except.error (Err.build e) := by
  induction calls with
  | nil => intro g hg i r h; simp [runOpens] at h
  | cons c rest ih =>
    intro g hg i r h
    obtain ⟨n, s⟩ := c
    simp only [runOpens] at h
    cases i with
    | zero =>
      simp only [List.getElem?_cons_zero, Option.some.injEq] at h
      exact h ▸ Open_no_build w g n s none e hg
    | succ i' =>
      simp only [List.getElem?_cons_succ] at h
      exact ih _ (by rw [Open_preserve w g n s none hg]; exact hg) i' r h

/-- C5: across any sequence of `Open` calls with a nil index argument,
the system-font index is built at most once; and when the build fails,
the build error is the result of exactly the first call of the
sequence. -/
theorem Open_singleton_build (w : OpenWorld) (calls : List (List Char × Nat)) (e : Nat) :
    buildCount w {} calls ≤ 1 ∧
    (w.findSystemFonts = Except.error e →
      ∀ (i : Nat) (r : Except Err (List Font)),
        (runOpens w {} calls)[i]? = some r →
        (r = Except.error (Err.build e) ↔ i = 0)) := by
  constructor
  · cases calls with
    | nil => simp [buildCount]
    | cons c rest =>
      obtain ⟨n, s⟩ := c
      have h0 : ({} : Global).onceDone = false := rfl
      simp only [buildCount, h0, if_neg Bool.false_ne_true]
      rw [buildCount_of_done w rest _ (Open_onceDone w {} n s)]
  · intro hfind i r h
    cases calls with
    | nil => simp [runOpens] at h
    | cons c rest =>
      obtain ⟨n, s⟩ := c
      have hr0 : (Open w {} n s none).2 = Except.error (Err.build e) := by
        simp [Open, hfind]
      simp only [runOpens] at h
      cases i with
      | zero =>
        simp only [List.getElem?_cons_zero, Option.some.injEq] at h
        subst h
        simp [hr0]
      | succ i' =>
        simp only [List.getElem?_cons_succ] at h
        have := runOpens_no_build w rest e _ (Open_onceDone w {} n s) i' r h
        constructor
        · intro hr; exact absurd hr this
        · intro h0; exact absurd h0 (by omega)

/-- C5 witness: with a failing build, the first of two calls returns
the build error and the build runs only once. -/
theorem Open_singleton_build_witness :
    buildCount ⟨fun _ => none, fun _ => Except.error 0, Except.error 7⟩ {}
      [(("a").data, 0), (("b").data, 0)] ≤ 1 ∧
    ((Except.error (Err.build 7) : Except Err (List Font)) =
        Except.error (Err.build 7) ↔ (0 : Nat) = 0) :=
  ⟨(Open_singleton_build ⟨fun _ => none, fun _ => Except.error 0, Except.error 7⟩
      [(("a").data, 0), (("b").data, 0)] 7).1,
   (Open_singleton_build ⟨fun _ => none, fun _ => Except.error 0, Except.error 7⟩
      [(("a").data, 0), (("b").data, 0)] 7).2 rfl 0 (Except.error (Err.build 7)) rfl⟩

theorem listLT_total : ∀ x y : List Char, listLT x y = false ∨ listLT y x = false := by
  intro x
  induction x with
  | nil =>
    intro y
    cases y with
    | nil => exact Or.inl rfl
    | cons b t => exact Or.inr rfl
  | cons a s ih =>
    intro y
    cases y with
    | nil => exact Or.inl rfl
    | cons b t =>
      rcases lt_trichotomy a b with h | h | h
      · right
        simp [listLT, lt_asymm h, h]
      · subst h
        rcases ih t with ht | ht
        · left; simp [listLT, lt_irrefl, ht]
        · right; simp [listLT, lt_irrefl, ht]
      · left
        simp [listLT, lt_asymm h, h]

theorem listLT_neg_trans :
    ∀ x y z : List Char, listLT y x = false → listLT z y = false → listLT z x = false := by
  intro x
  induction x with
  | nil =>
    intro y z h1 h2
    cases z with
    | nil => rfl
    | cons c u => rfl
  | cons a s ih =>
    intro y z h1 h2
    cases y with
    | nil => simp [listLT] at h1
    | cons b t =>
      cases z with
      | nil => simp [listLT] at h2
      | cons c u =>
        simp only [listLT] at h1 h2 ⊢
        by_cases hba : b < a
        · simp [hba] at h1
        · by_cases hcb : c < b
          · simp [hcb] at h2
          · have hab : a ≤ b := le_of_not_lt hba
            have hbc : b ≤ c := le_of_not_lt hcb
            have hac : a ≤ c := le_trans hab hbc
            rw [if_neg (not_lt.mpr hac)]
            by_cases hca : a < c
            · rw [if_pos hca]
            · rw [if_neg hca]
              have hac2 : a = c := le_antisymm hac (le_of_not_lt hca)
              subst hac2
              have hb2 : a = b := le_antisymm hab hbc
              subst hb2
              rw [if_neg hba, if_neg (lt_irrefl a)] at h1
              rw [if_neg hcb, if_neg (lt_irrefl a)] at h2
              exact ih t u h1 h2

instance : IsTotal Font fontLE :=
  ⟨fun a b => listLT_total (b.Family.map lowerAscii) (a.Family.map lowerAscii)⟩

instance : IsTrans Font fontLE :=
  ⟨fun a b c h1 h2 =>
    listLT_neg_trans (a.Family.map lowerAscii) (b.Family.map lowerAscii)
      (c.Family.map lowerAscii) h1 h2⟩

theorem extMatch_iff (s : List Char) :
    extMatch s = true ↔
      ∃ t ext, s = t ++ ext ∧
        ext.map foldChar ∈ [(".ttf").data, (".ttc").data, (".otf").data,
          (".woff").data, (".woff2").data, (".sfnt").data] := by
  constructor
  · intro h
    simp only [extMatch, List.any_eq_true] at h
    obtain ⟨e0, hmem, hsuf⟩ := h
    obtain ⟨pre, hpre⟩ := List.isSuffixOf_iff_suffix.mp hsuf
    obtain ⟨t, ext, rfl, hmt, hme⟩ := List.map_eq_append_iff.mp hpre.symm
    refine ⟨t, ext, rfl, ?_⟩
    rw [hme]
    fin_cases hmem <;> simp
  · rintro ⟨t, ext, rfl, hmem⟩
    simp only [extMatch, List.any_eq_true]
    have hsuf : ∀ p : List Char, p = ext.map foldChar →
        p.isSuffixOf ((t ++ ext).map foldChar) = true := by
      intro p hp
      rw [List.isSuffixOf_iff_suffix, hp, List.map_append]
      exact List.suffix_append _ _
    simp only [List.mem_cons, List.not_mem_nil, or_false] at hmem
    rcases hmem with h | h | h | h | h | h
    · exact ⟨".ttf", by simp, hsuf _ h.symm⟩
    · exact ⟨".ttc", by simp, hsuf _ h.symm⟩
    · exact ⟨".otf", by simp, hsuf _ h.symm⟩
    · exact ⟨".woff", by simp, hsuf _ h.symm⟩
    · exact ⟨".woff2", by simp, hsuf _ h.symm⟩
    · exact ⟨".sfnt", by simp, hsuf _ h.symm⟩

/-- C4: opening an existing directory builds one `Font` per immediate
non-directory entry whose name matches the font-extension pattern
(ending, case-insensitively, in one of the six extensions), excludes
every other entry (no recursion: only the immediate entries are ever
consulted), and returns them sorted by family name under
case-insensitive lexicographic order (failing with not-found when no
entry matches). -/
theorem Open_directory (w : OpenWorld) (g : Global) (name : List Char) (style : Nat)
    (sf : SysFonts) (entries : List DirEntry)
    (hstat : w.stat name = some true) (hdir : w.readDir name = Except.ok entries) :
    ((Open w g name style (some sf)).2 =
      (if (sortByFamily ((entries.filter (fun e => !e.isDir && extMatch e.name)).map
            (fun e => New none (joinPath name e.name)))).isEmpty
       then Except.error (Err.notFound name)
       else Except.ok (sortByFamily ((entries.filter (fun e => !e.isDir && extMatch e.name)).map
            (fun e => New none (joinPath name e.name)))))) ∧
    (sortByFamily ((entries.filter (fun e => !e.isDir && extMatch e.name)).map
        (fun e => New none (joinPath name e.name)))).Perm
      ((entries.filter (fun e => !e.isDir && extMatch e.name)).map
        (fun e => New none (joinPath name e.name))) ∧
    List.Pairwise fontLE (sortByFamily ((entries.filter (fun e => !e.isDir && extMatch e.name)).map
        (fun e => New none (joinPath name e.name)))) ∧
    (∀ s, extMatch s = true ↔
      ∃ t ext, s = t ++ ext ∧
        ext.map foldChar ∈ [(".ttf").data, (".ttc").data, (".otf").data,
          (".woff").data, (".woff2").data, (".sfnt").data]) := by
  refine ⟨?_, List.perm_insertionSort fontLE _, List.sorted_insertionSort fontLE _, extMatch_iff⟩
  simp [Open, openLocate, hstat, hdir]

/-- C4 witness: a directory with two matching files (one with an
upper-case extension), one subdirectory whose name also matches, and
one non-font file yields exactly the two fonts for the matching plain
files, sorted by family. -/
theorem Open_directory_witness :
    (Open ⟨fun _ => some true,
           fun _ => Except.ok [⟨("b.TTF").data, false⟩, ⟨("sub.ttf").data, true⟩,
                               (⟨("a.otf").data, false⟩ : DirEntry), ⟨("c.txt").data, false⟩],
           Except.error 0⟩ {} ("d").data 0 (some ⟨fun _ _ => none⟩)).2 =
      Except.ok [New none (("d/a.otf").data), New none (("d/b.TTF").data)] := by
  have h := (Open_directory ⟨fun _ => some true,
      fun _ => Except.ok [⟨("b.TTF").data, false⟩, ⟨("sub.ttf").data, true⟩,
                          (⟨("a.otf").data, false⟩ : DirEntry), ⟨("c.txt").data, false⟩],
      Except.error 0⟩ {} ("d").data 0 ⟨fun _ _ => none⟩
      [⟨("b.TTF").data, false⟩, ⟨("sub.ttf").data, true⟩,
       (⟨("a.otf").data, false⟩ : DirEntry), ⟨("c.txt").data, false⟩] rfl rfl).1
  rw [h]
  rfl

/-- The facts about Go's Unicode tables that the idempotence of
`titleCase` rests on: lower-case and upper-case characters are letters,
white-space characters (and the zero rune) are not letters, and no
character is both lower- and upper-case.  The real `unicode` package
satisfies all of them. -/
def UniSound (u : Uni) : Prop :=
  (∀ c, u.isLower c = true → u.isLetter c = true) ∧
  (∀ c, u.isUpper c = true → u.isLetter c = true) ∧
  (∀ c, isSpace c = true → u.isLetter c = false) ∧
  (u.isLetter (Char.ofNat 0) = false) ∧
  (∀ c, ¬(u.isLower c = true ∧ u.isUpper c = true))

theorem UniSound.lower_letter {u : Uni} (h : UniSound u) :
    ∀ c, u.isLower c = true → u.isLetter c = true := h.1

theorem UniSound.upper_letter {u : Uni} (h : UniSound u) :
    ∀ c, u.isUpper c = true → u.isLetter c = true := h.2.1

theorem UniSound.space_not_letter {u : Uni} (h : UniSound u) :
    ∀ c, isSpace c = true → u.isLetter c = false := h.2.2.1

theorem UniSound.zero_not_letter {u : Uni} (h : UniSound u) :
    u.isLetter (Char.ofNat 0) = false := h.2.2.2.1

theorem UniSound.not_both {u : Uni} (h : UniSound u) :
    ∀ c, ¬(u.isLower c = true ∧ u.isUpper c = true) := h.2.2.2.2

theorem UniSound.not_letter_lower {u : Uni} (h : UniSound u) {c : Char}
    (hc : u.isLetter c = false) : u.isLower c = false := by
  cases hl : u.isLower c
  · rfl
  · exact absurd (h.lower_letter c hl) (by simp [hc])

theorem UniSound.not_letter_upper {u : Uni} (h : UniSound u) {c : Char}
    (hc : u.isLetter c = false) : u.isUpper c = false := by
  cases hl : u.isUpper c
  · rfl
  · exact absurd (h.upper_letter c hl) (by simp [hc])

theorem UniSound.space_lower {u : Uni} (h : UniSound u) :
    u.isLower ' ' = false := h.not_letter_lower (h.space_not_letter ' ' (by decide))

theorem UniSound.space_upper {u : Uni} (h : UniSound u) :
    u.isUpper ' ' = false := h.not_letter_upper (h.space_not_letter ' ' (by decide))

theorem UniSound.zero_lower {u : Uni} (h : UniSound u) :
    u.isLower (Char.ofNat 0) = false := h.not_letter_lower h.zero_not_letter

theorem UniSound.zero_upper {u : Uni} (h : UniSound u) :
    u.isUpper (Char.ofNat 0) = false := h.not_letter_upper h.zero_not_letter

/-- No lowercase character immediately followed by an uppercase one
(the first `titleCase` rule never fires), stated over consecutive
positions via `peek`. -/
def noLU (u : Uni) : List Char → Prop
  | [] => True
  | x :: rest => ¬(u.isLower x = true ∧ u.isUpper (peek rest 0) = true) ∧ noLU u rest

/-- No uppercase pair immediately followed by a lowercase character
(the acronym rule never fires). -/
def noUUL (u : Uni) : List Char → Prop
  | [] => True
  | x :: rest =>
    ¬(u.isUpper x = true ∧ u.isUpper (peek rest 0) = true ∧
      u.isLower (peek rest 1) = true) ∧ noUUL u rest

/-- Every character is a letter or a plain space. -/
def charsOK (u : Uni) (l : List Char) : Prop := ∀ c ∈ l, u.isLetter c = true ∨ c = ' '

theorem peek_cons_zero (c : Char) (l : List Char) : peek (c :: l) 0 = c := rfl

theorem peek_cons_succ (c : Char) (l : List Char) (i : Nat) :
    peek (c :: l) (i + 1) = peek l i := rfl

/-- On a string whose characters are letters or spaces, with no
camelCase boundary and no acronym boundary anywhere (including against
the incoming `prev`), the `titleCase` loop is the identity. -/
theorem tcLoop_fixed {u : Uni} (hu : UniSound u) :
    ∀ (l : List Char) (prev : Char), charsOK u l →
      noLU u (prev :: l) → noUUL u (prev :: l) → tcLoop u prev l = l := by
  intro l
  induction l with
  | nil => intro prev _ _ _; rfl
  | cons c rest ih =>
    intro prev hchars hlu huul
    obtain ⟨h1, hlu'⟩ := hlu
    obtain ⟨h2, huul'⟩ := huul
    rw [peek_cons_zero] at h1
    rw [peek_cons_zero, peek_cons_succ] at h2
    have hcond1 : (u.isLower prev && u.isUpper c) = false := by
      cases hl : u.isLower prev
      · rfl
      · cases hup : u.isUpper c
        · rfl
        · exact absurd ⟨hl, hup⟩ h1
    have hc' : (if u.isLower prev && u.isUpper c then c
                else if u.isLetter c then c else ' ') = c := by
      rw [hcond1]
      rcases hchars c (by simp) with hlet | hsp
      · simp [hlet]
      · subst hsp
        simp [ite_self]
    have hcond2 : (u.isUpper prev && u.isUpper c && u.isLower (peek rest 0)) = false := by
      by_contra hne
      have ht := (Bool.not_eq_false _).mp hne
      rw [Bool.and_eq_true, Bool.and_eq_true] at ht
      exact absurd ⟨ht.1.1, ht.1.2, ht.2⟩ h2
    have hrec : tcLoop u c rest = rest :=
      ih c (fun x hx => hchars x (by simp [hx])) hlu' huul'
    have hc2 : (if u.isLetter c = true then c else ' ') = c := by
      rcases hchars c (by simp) with hlet | hsp
      · simp [hlet]
      · subst hsp
        simp [ite_self]
    simp only [tcLoop, hcond1, Bool.false_eq_true, if_false, List.nil_append,
      hc2, hcond2, hrec]

/-- The (possibly mutated) character that the `titleCase` loop appends
for input `c` after `prev`. -/
def tcChar (u : Uni) (prev c : Char) : Char :=
  if u.isLower prev && u.isUpper c then c
  else if u.isLetter c then c else ' '

theorem tcLoop_cons (u : Uni) (prev c : Char) (rest : List Char) :
    tcLoop u prev (c :: rest) =
      (if u.isLower prev && u.isUpper c then [' '] else []) ++
      (if u.isUpper prev && u.isUpper (tcChar u prev c) && u.isLower (peek rest 0)
       then [' '] else []) ++
      tcChar u prev c :: tcLoop u (tcChar u prev c) rest := rfl

theorem tcChar_lower {u : Uni} (hu : UniSound u) (prev c : Char) :
    u.isLower (tcChar u prev c) = u.isLower c := by
  unfold tcChar
  by_cases h1 : (u.isLower prev && u.isUpper c) = true
  · rw [if_pos h1]
  · rw [if_neg h1]
    by_cases h2 : u.isLetter c = true
    · rw [if_pos h2]
    · rw [if_neg h2]
      rw [hu.space_lower, hu.not_letter_lower (Bool.not_eq_true _ ▸ h2 : u.isLetter c = false)]

theorem tcChar_upper {u : Uni} (hu : UniSound u) (prev c : Char) :
    u.isUpper (tcChar u prev c) = u.isUpper c := by
  unfold tcChar
  by_cases h1 : (u.isLower prev && u.isUpper c) = true
  · rw [if_pos h1]
  · rw [if_neg h1]
    by_cases h2 : u.isLetter c = true
    · rw [if_pos h2]
    · rw [if_neg h2]
      rw [hu.space_upper, hu.not_letter_upper (Bool.not_eq_true _ ▸ h2 : u.isLetter c = false)]

theorem tcChar_charsOK {u : Uni} (hu : UniSound u) (prev c : Char) :
    u.isLetter (tcChar u prev c) = true ∨ tcChar u prev c = ' ' := by
  unfold tcChar
  by_cases h1 : (u.isLower prev && u.isUpper c) = true
  · rw [if_pos h1]
    exact Or.inl (hu.upper_letter c ((Bool.and_eq_true _ _).mp h1).2)
  · by_cases h2 : u.isLetter c = true
    · rw [if_neg h1, if_pos h2]
      exact Or.inl h2
    · rw [if_neg h1, if_neg h2]
      exact Or.inr rfl

theorem tcLoop_charsOK {u : Uni} (hu : UniSound u) :
    ∀ (l : List Char) (prev : Char), charsOK u (tcLoop u prev l) := by
  intro l
  induction l with
  | nil => intro prev c hc; simp [tcLoop] at hc
  | cons c rest ih =>
    intro prev x hx
    rw [tcLoop_cons] at hx
    rcases List.mem_append.mp hx with hx | hx
    · rcases List.mem_append.mp hx with hx | hx
      · split at hx
        · rcases List.mem_singleton.mp hx with rfl
          exact Or.inr rfl
        · simp at hx
      · split at hx
        · rcases List.mem_singleton.mp hx with rfl
          exact Or.inr rfl
        · simp at hx
    · rcases List.mem_cons.mp hx with rfl | hx
      · exact tcChar_charsOK hu prev c
      · exact ih (tcChar u prev c) x hx

theorem tcLoop_head_lower {u : Uni} (hu : UniSound u) :
    ∀ (l : List Char) (prev : Char),
      u.isLower (peek (tcLoop u prev l) 0) = u.isLower (peek l 0) := by
  intro l prev
  cases l with
  | nil => rfl
  | cons c rest =>
    rw [tcLoop_cons, peek_cons_zero]
    by_cases h1 : (u.isLower prev && u.isUpper c) = true
    · rw [if_pos h1]
      simp only [List.cons_append, peek_cons_zero, hu.space_lower]
      have := ((Bool.and_eq_true _ _).mp h1).2
      cases hl : u.isLower c
      · rfl
      · exact absurd ⟨hl, this⟩ (hu.not_both c)
    · rw [if_neg h1]
      by_cases h2 : (u.isUpper prev && u.isUpper (tcChar u prev c) &&
          u.isLower (peek rest 0)) = true
      · rw [if_pos h2]
        simp only [List.cons_append, List.nil_append, peek_cons_zero, hu.space_lower]
        have hupc : u.isUpper c = true := by
          have := ((Bool.and_eq_true _ _).mp ((Bool.and_eq_true _ _).mp h2).1).2
          rw [tcChar_upper hu] at this
          exact this
        cases hl : u.isLower c
        · rfl
        · exact absurd ⟨hl, hupc⟩ (hu.not_both c)
      · rw [if_neg h2]
        simp only [List.nil_append, peek_cons_zero]
        exact tcChar_lower hu prev c

theorem peek_nil (i : Nat) : peek [] i = Char.ofNat 0 := by
  cases i <;> rfl

theorem tcLoop_noLU {u : Uni} (hu : UniSound u) :
    ∀ (l : List Char) (prev : Char), noLU u (prev :: tcLoop u prev l) := by
  intro l
  induction l with
  | nil =>
    intro prev
    simp only [tcLoop, noLU, peek_nil]
    exact ⟨fun h => by simp [hu.zero_upper] at h, trivial⟩
  | cons c rest ih =>
    intro prev
    have ihx := ih (tcChar u prev c)
    rw [tcLoop_cons]
    by_cases h1 : (u.isLower prev && u.isUpper c) = true <;>
      by_cases h2 : (u.isUpper prev && u.isUpper (tcChar u prev c) &&
        u.isLower (peek rest 0)) = true
    · rw [if_pos h1, if_pos h2]
      simp only [List.cons_append, List.nil_append, noLU, peek_cons_zero] at ihx ⊢
      exact ⟨by simp [hu.space_upper], by simp [hu.space_lower], by simp [hu.space_lower],
        ihx.1, ihx.2⟩
    · rw [if_pos h1, if_neg h2]
      simp only [List.cons_append, List.nil_append, noLU, peek_cons_zero] at ihx ⊢
      exact ⟨by simp [hu.space_upper], by simp [hu.space_lower], ihx.1, ihx.2⟩
    · rw [if_neg h1, if_pos h2]
      simp only [List.cons_append, List.nil_append, noLU, peek_cons_zero] at ihx ⊢
      exact ⟨by simp [hu.space_upper], by simp [hu.space_lower], ihx.1, ihx.2⟩
    · rw [if_neg h1, if_neg h2]
      simp only [List.cons_append, List.nil_append, noLU, peek_cons_zero] at ihx ⊢
      refine ⟨?_, ihx.1, ihx.2⟩
      rintro ⟨ha, hb⟩
      rw [tcChar_upper hu] at hb
      exact h1 (by rw [ha, hb]; rfl)

theorem tcLoop_noUUL {u : Uni} (hu : UniSound u) :
    ∀ (l : List Char) (prev : Char), noUUL u (prev :: tcLoop u prev l) := by
  intro l
  induction l with
  | nil =>
    intro prev
    simp only [tcLoop, noUUL, peek_nil]
    exact ⟨fun h => by simp [hu.zero_upper] at h, trivial⟩
  | cons c rest ih =>
    intro prev
    have ihx := ih (tcChar u prev c)
    rw [tcLoop_cons]
    by_cases h1 : (u.isLower prev && u.isUpper c) = true <;>
      by_cases h2 : (u.isUpper prev && u.isUpper (tcChar u prev c) &&
        u.isLower (peek rest 0)) = true
    · rw [if_pos h1, if_pos h2]
      simp only [List.cons_append, List.nil_append, noUUL, peek_cons_zero,
        peek_cons_succ] at ihx ⊢
      exact ⟨by simp [hu.space_upper], by simp [hu.space_upper], by simp [hu.space_upper],
        ihx.1, ihx.2⟩
    · rw [if_pos h1, if_neg h2]
      simp only [List.cons_append, List.nil_append, noUUL, peek_cons_zero,
        peek_cons_succ] at ihx ⊢
      exact ⟨by simp [hu.space_upper], by simp [hu.space_upper], ihx.1, ihx.2⟩
    · rw [if_neg h1, if_pos h2]
      simp only [List.cons_append, List.nil_append, noUUL, peek_cons_zero,
        peek_cons_succ] at ihx ⊢
      exact ⟨by simp [hu.space_upper], by simp [hu.space_upper], ihx.1, ihx.2⟩
    · rw [if_neg h1, if_neg h2]
      simp only [List.cons_append, List.nil_append, noUUL, peek_cons_zero,
        peek_cons_succ] at ihx ⊢
      refine ⟨?_, ihx.1, ihx.2⟩
      rintro ⟨ha, hb, hc⟩
      rw [tcLoop_head_lower hu rest (tcChar u prev c)] at hc
      exact h2 (by rw [ha, hb, hc]; rfl)

theorem noLU_append_right {u : Uni} :
    ∀ a b : List Char, noLU u (a ++ b) → noLU u b := by
  intro a
  induction a with
  | nil => intro b h; exact h
  | cons x a' ih => intro b h; exact ih b h.2

theorem noUUL_append_right {u : Uni} :
    ∀ a b : List Char, noUUL u (a ++ b) → noUUL u b := by
  intro a
  induction a with
  | nil => intro b h; exact h
  | cons x a' ih => intro b h; exact ih b h.2

theorem noLU_append_left {u : Uni} (hu : UniSound u) :
    ∀ a b : List Char, noLU u (a ++ b) → noLU u a := by
  intro a
  induction a with
  | nil => intro b _; trivial
  | cons x a' ih =>
    intro b h
    refine ⟨?_, ih b h.2⟩
    cases a' with
    | nil =>
      rw [peek_nil]
      simp [hu.zero_upper]
    | cons y a'' => exact h.1

theorem noUUL_append_left {u : Uni} (hu : UniSound u) :
    ∀ a b : List Char, noUUL u (a ++ b) → noUUL u a := by
  intro a
  induction a with
  | nil => intro b _; trivial
  | cons x a' ih =>
    intro b h
    refine ⟨?_, ih b h.2⟩
    cases a' with
    | nil =>
      rw [peek_nil, peek_nil]
      simp [hu.zero_upper]
    | cons y a'' =>
      cases a'' with
      | nil =>
        rw [peek_cons_zero, peek_cons_succ, peek_nil]
        simp [hu.zero_lower]
      | cons z a3 => exact h.1

theorem dropWhile_decomp (p : Char → Bool) :
    ∀ m : List Char, ∃ t, m = t ++ m.dropWhile p := by
  intro m
  induction m with
  | nil => exact ⟨[], rfl⟩
  | cons c m' ih =>
    by_cases hc : p c = true
    · obtain ⟨t, ht⟩ := ih
      refine ⟨c :: t, ?_⟩
      rw [show (c :: m').dropWhile p = m'.dropWhile p by simp [List.dropWhile_cons, hc],
        List.cons_append, ← ht]
    · refine ⟨[], ?_⟩
      rw [show (c :: m').dropWhile p = c :: m' by
        simp [List.dropWhile_cons, Bool.not_eq_true _ ▸ hc]]
      rfl

theorem trimSpace_decomp (l : List Char) :
    ∃ t1 t2, l = t1 ++ (trimSpace l ++ t2) := by
  obtain ⟨t1, ht1⟩ := dropWhile_decomp isSpace l
  obtain ⟨t, ht⟩ := dropWhile_decomp isSpace (l.dropWhile isSpace).reverse
  refine ⟨t1, t.reverse, ?_⟩
  unfold trimSpace
  conv_lhs => rw [ht1]
  congr 1
  have := congrArg List.reverse ht
  rw [List.reverse_reverse, List.reverse_append] at this
  exact this

theorem goWS_isSpace : ∀ c : Char, goWS c = true → isSpace c = true := by
  intro c h
  simp only [goWS, Bool.or_eq_true, decide_eq_true_eq] at h
  rcases h with (((rfl | rfl) | rfl) | rfl) | rfl <;> decide

theorem UniSound.ws_lower {u : Uni} (hu : UniSound u) {c : Char} (h : goWS c = true) :
    u.isLower c = false :=
  hu.not_letter_lower (hu.space_not_letter c (goWS_isSpace c h))

theorem UniSound.ws_upper {u : Uni} (hu : UniSound u) {c : Char} (h : goWS c = true) :
    u.isUpper c = false :=
  hu.not_letter_upper (hu.space_not_letter c (goWS_isSpace c h))

theorem collapseGo_cons_ws_false (c : Char) (rest : List Char) (h : goWS c = true) :
    collapseGo false (c :: rest) = ' ' :: collapseGo true rest := by
  simp [collapseGo, h]

theorem collapseGo_cons_ws_true (c : Char) (rest : List Char) (h : goWS c = true) :
    collapseGo true (c :: rest) = collapseGo true rest := by
  simp [collapseGo, h]

theorem collapseGo_cons_not_ws (b : Bool) (c : Char) (rest : List Char) (h : goWS c = false) :
    collapseGo b (c :: rest) = c :: collapseGo false rest := by
  cases b <;> simp [collapseGo, h]

theorem collapseGo_noLU {u : Uni} (hu : UniSound u) :
    ∀ (m : List Char) (b : Bool), noLU u m → noLU u (collapseGo b m) := by
  intro m
  induction m with
  | nil => intro b _; cases b <;> trivial
  | cons c rest ih =>
    intro b h
    by_cases hc : goWS c = true
    · cases b
      · rw [collapseGo_cons_ws_false c rest hc]
        refine ⟨?_, ih true h.2⟩
        simp [hu.space_lower]
      · rw [collapseGo_cons_ws_true c rest hc]
        exact ih true h.2
    · replace hc : goWS c = false := Bool.not_eq_true _ ▸ hc
      rw [collapseGo_cons_not_ws b c rest hc]
      refine ⟨?_, ih false h.2⟩
      cases rest with
      | nil =>
        simp only [collapseGo, peek_nil]
        simp [hu.zero_upper]
      | cons d rest' =>
        by_cases hd : goWS d = true
        · rw [collapseGo_cons_ws_false d rest' hd, peek_cons_zero]
          simp [hu.space_upper]
        · replace hd : goWS d = false := Bool.not_eq_true _ ▸ hd
          rw [collapseGo_cons_not_ws false d rest' hd, peek_cons_zero]
          exact h.1

theorem collapseGo_noUUL {u : Uni} (hu : UniSound u) :
    ∀ (m : List Char) (b : Bool), noUUL u m → noUUL u (collapseGo b m) := by
  intro m
  induction m with
  | nil => intro b _; cases b <;> trivial
  | cons c rest ih =>
    intro b h
    by_cases hc : goWS c = true
    · cases b
      · rw [collapseGo_cons_ws_false c rest hc]
        refine ⟨?_, ih true h.2⟩
        simp [hu.ws_upper hc, hu.space_upper]
      · rw [collapseGo_cons_ws_true c rest hc]
        exact ih true h.2
    · replace hc : goWS c = false := Bool.not_eq_true _ ▸ hc
      rw [collapseGo_cons_not_ws b c rest hc]
      refine ⟨?_, ih false h.2⟩
      cases rest with
      | nil =>
        simp only [collapseGo, peek_nil]
        simp [hu.zero_upper]
      | cons d rest' =>
        by_cases hd : goWS d = true
        · rw [collapseGo_cons_ws_false d rest' hd, peek_cons_zero]
          simp [hu.space_upper]
        · replace hd : goWS d = false := Bool.not_eq_true _ ▸ hd
          rw [collapseGo_cons_not_ws false d rest' hd, peek_cons_zero, peek_cons_succ]
          cases rest' with
          | nil =>
            simp only [collapseGo, peek_nil]
            simp [hu.zero_lower]
          | cons e rest2 =>
            by_cases he : goWS e = true
            · rw [collapseGo_cons_ws_false e rest2 he, peek_cons_zero]
              simp [hu.space_lower]
            · replace he : goWS e = false := Bool.not_eq_true _ ▸ he
              rw [collapseGo_cons_not_ws false e rest2 he, peek_cons_zero]
              exact h.1

theorem collapseGo_charsOK {u : Uni} :
    ∀ (m : List Char) (b : Bool), charsOK u m → charsOK u (collapseGo b m) := by
  intro m
  induction m with
  | nil => intro b _ x hx; cases b <;> simp [collapseGo] at hx
  | cons c rest ih =>
    intro b h x hx
    by_cases hc : goWS c = true
    · cases b
      · rw [collapseGo_cons_ws_false c rest hc] at hx
        rcases List.mem_cons.mp hx with rfl | hx
        · exact Or.inr rfl
        · exact ih true (fun y hy => h y (by simp [hy])) x hx
      · rw [collapseGo_cons_ws_true c rest hc] at hx
        exact ih true (fun y hy => h y (by simp [hy])) x hx
    · replace hc : goWS c = false := Bool.not_eq_true _ ▸ hc
      rw [collapseGo_cons_not_ws b c rest hc] at hx
      rcases List.mem_cons.mp hx with rfl | hx
      · exact h x (by simp)
      · exact ih false (fun y hy => h y (by simp [hy])) x hx

/-- A string on which the whitespace-collapsing pass is the identity:
every `\s` character is a plain space followed by a non-`\s` character
(or the end). -/
def collapsed : List Char → Prop
  | [] => True
  | c :: rest =>
    (goWS c = true → c = ' ' ∧ goWS (peek rest 0) = false) ∧ collapsed rest

theorem collapseGo_head_true :
    ∀ m : List Char, goWS (peek (collapseGo true m) 0) = false := by
  intro m
  induction m with
  | nil =>
    show goWS (peek (collapseGo true []) 0) = false
    decide
  | cons c rest ih =>
    by_cases hc : goWS c = true
    · rw [collapseGo_cons_ws_true c rest hc]
      exact ih
    · replace hc : goWS c = false := Bool.not_eq_true _ ▸ hc
      rw [collapseGo_cons_not_ws true c rest hc, peek_cons_zero]
      exact hc

theorem collapseGo_collapsed :
    ∀ (m : List Char) (b : Bool), collapsed (collapseGo b m) := by
  intro m
  induction m with
  | nil => intro b; cases b <;> trivial
  | cons c rest ih =>
    intro b
    by_cases hc : goWS c = true
    · cases b
      · rw [collapseGo_cons_ws_false c rest hc]
        exact ⟨fun _ => ⟨rfl, collapseGo_head_true rest⟩, ih true⟩
      · rw [collapseGo_cons_ws_true c rest hc]
        exact ih true
    · replace hc : goWS c = false := Bool.not_eq_true _ ▸ hc
      rw [collapseGo_cons_not_ws b c rest hc]
      exact ⟨fun h => absurd h (by simp [hc]), ih false⟩

theorem collapsed_fix :
    ∀ l : List Char, collapsed l →
      collapseGo false l = l ∧ (goWS (peek l 0) = false → collapseGo true l = l) := by
  intro l
  induction l with
  | nil => exact fun _ => ⟨rfl, fun _ => rfl⟩
  | cons c rest ih =>
    intro h
    obtain ⟨hcond, hrest⟩ := h
    by_cases hc : goWS c = true
    · obtain ⟨rfl, hnext⟩ := hcond hc
      constructor
      · rw [collapseGo_cons_ws_false ' ' rest (by decide)]
        have : collapseGo true rest = rest := (ih hrest).2 hnext
        rw [this]
      · intro hh
        rw [peek_cons_zero] at hh
        exact absurd hc (by simp [hh])
    · replace hc : goWS c = false := Bool.not_eq_true _ ▸ hc
      have h1 : collapseGo false rest = rest := (ih hrest).1
      constructor
      · rw [collapseGo_cons_not_ws false c rest hc, h1]
      · intro _
        rw [collapseGo_cons_not_ws true c rest hc, h1]

/-- No trailing whitespace: the last character, if any, is not a space. -/
def noTrailWS : List Char → Prop
  | [] => True
  | [c] => isSpace c = false
  | _ :: c :: rest => noTrailWS (c :: rest)

theorem noTrailWS_cons (x c : Char) (rest : List Char) :
    noTrailWS (x :: c :: rest) = noTrailWS (c :: rest) := rfl

theorem dropWhile_head_false (p : Char → Bool) :
    ∀ (m : List Char) (c : Char) (xs : List Char),
      m.dropWhile p = c :: xs → p c = false := by
  intro m
  induction m with
  | nil => intro c xs h; simp at h
  | cons d m' ih =>
    intro c xs h
    by_cases hd : p d = true
    · rw [show (d :: m').dropWhile p = m'.dropWhile p by simp [List.dropWhile_cons, hd]] at h
      exact ih c xs h
    · replace hd : p d = false := Bool.not_eq_true _ ▸ hd
      rw [show (d :: m').dropWhile p = d :: m' by simp [List.dropWhile_cons, hd]] at h
      cases h
      exact hd

theorem noTrailWS_append_singleton (c : Char) (hc : isSpace c = false) :
    ∀ ys : List Char, noTrailWS (ys ++ [c]) := by
  intro ys
  induction ys with
  | nil => exact hc
  | cons y ys' ih =>
    cases ys' with
    | nil => exact ih
    | cons z zs => exact ih

theorem trimRight_eq_self :
    ∀ l : List Char, noTrailWS l → (l.reverse.dropWhile isSpace).reverse = l := by
  intro l
  induction l with
  | nil => intro _; rfl
  | cons c rest ih =>
    intro h
    cases rest with
    | nil =>
      have hc : isSpace c = false := h
      simp [List.dropWhile_cons, hc]
    | cons d rest' =>
      have hrest : noTrailWS (d :: rest') := h
      have ihr : ((d :: rest').reverse.dropWhile isSpace).reverse = d :: rest' := ih hrest
      have ihr' : (d :: rest').reverse.dropWhile isSpace = (d :: rest').reverse := by
        have := congrArg List.reverse ihr
        rwa [List.reverse_reverse] at this
      rw [show (c :: d :: rest').reverse = (d :: rest').reverse ++ [c] from by simp,
        List.dropWhile_append, ihr', if_neg (by simp), List.reverse_append,
        List.reverse_reverse]
      rfl

theorem collapseGo_ne_nil :
    ∀ (m : List Char) (b : Bool), m ≠ [] → noTrailWS m → collapseGo b m ≠ [] := by
  intro m
  induction m with
  | nil => intro b h _; exact absurd rfl h
  | cons c rest ih =>
    intro b _ h
    cases rest with
    | nil =>
      have hc : isSpace c = false := h
      have hg : goWS c = false := by
        cases hgw : goWS c
        · rfl
        · exact absurd (goWS_isSpace c hgw) (by simp [hc])
      rw [collapseGo_cons_not_ws b c [] hg]
      simp
    | cons d rest' =>
      have hrest : noTrailWS (d :: rest') := h
      by_cases hc : goWS c = true
      · cases b
        · rw [collapseGo_cons_ws_false c _ hc]
          simp
        · rw [collapseGo_cons_ws_true c _ hc]
          exact ih true (by simp) hrest
      · replace hc : goWS c = false := Bool.not_eq_true _ ▸ hc
        rw [collapseGo_cons_not_ws b c _ hc]
        simp

theorem collapseGo_noTrailWS :
    ∀ (m : List Char) (b : Bool), noTrailWS m → noTrailWS (collapseGo b m) := by
  intro m
  induction m with
  | nil => intro b _; cases b <;> trivial
  | cons c rest ih =>
    intro b h
    cases rest with
    | nil =>
      have hc : isSpace c = false := h
      have hg : goWS c = false := by
        cases hgw : goWS c
        · rfl
        · exact absurd (goWS_isSpace c hgw) (by simp [hc])
      rw [collapseGo_cons_not_ws b c [] hg]
      exact h
    | cons d rest' =>
      have hrest : noTrailWS (d :: rest') := h
      have hne : collapseGo true (d :: rest') ≠ [] :=
        collapseGo_ne_nil (d :: rest') true (by simp) hrest
      have hne' : collapseGo false (d :: rest') ≠ [] :=
        collapseGo_ne_nil (d :: rest') false (by simp) hrest
      by_cases hc : goWS c = true
      · cases b
        · rw [collapseGo_cons_ws_false c _ hc]
          obtain ⟨x, xs, hx⟩ := List.exists_cons_of_ne_nil hne
          rw [hx, noTrailWS_cons]
          rw [← hx]
          exact ih true hrest
        · rw [collapseGo_cons_ws_true c _ hc]
          exact ih true hrest
      · replace hc : goWS c = false := Bool.not_eq_true _ ▸ hc
        rw [collapseGo_cons_not_ws b c _ hc]
        obtain ⟨x, xs, hx⟩ := List.exists_cons_of_ne_nil hne'
        rw [hx, noTrailWS_cons]
        rw [← hx]
        exact ih false hrest

theorem trimSpace_noTrailWS (l : List Char) : noTrailWS (trimSpace l) := by
  unfold trimSpace
  cases hd : (l.dropWhile isSpace).reverse.dropWhile isSpace with
  | nil => trivial
  | cons c xs =>
    have hc : isSpace c = false := dropWhile_head_false isSpace _ c xs hd
    rw [show (c :: xs).reverse = xs.reverse ++ [c] from by simp]
    exact noTrailWS_append_singleton c hc xs.reverse

theorem trimSpace_prefix_drop (l : List Char) :
    ∃ t2, l.dropWhile isSpace = trimSpace l ++ t2 := by
  obtain ⟨t, ht⟩ := dropWhile_decomp isSpace (l.dropWhile isSpace).reverse
  refine ⟨t.reverse, ?_⟩
  unfold trimSpace
  have := congrArg List.reverse ht
  rwa [List.reverse_reverse, List.reverse_append] at this

theorem trimSpace_head_not_space (l : List Char) (c : Char) (r : List Char)
    (h : trimSpace l = c :: r) : isSpace c = false := by
  obtain ⟨t2, ht2⟩ := trimSpace_prefix_drop l
  rw [h] at ht2
  exact dropWhile_head_false isSpace _ c (r ++ t2) ht2

theorem trimSpace_eq_of (l : List Char) (h1 : l.dropWhile isSpace = l)
    (h2 : noTrailWS l) : trimSpace l = l := by
  unfold trimSpace
  rw [h1, trimRight_eq_self l h2]

theorem titleCase_idem_list {u : Uni} (hu : UniSound u) (s : List Char) :
    titleCase u (titleCase u s) = titleCase u s := by
  have hchars_t : charsOK u (tcLoop u (Char.ofNat 0) s) := tcLoop_charsOK hu s (Char.ofNat 0)
  have hlu_t : noLU u (Char.ofNat 0 :: tcLoop u (Char.ofNat 0) s) := tcLoop_noLU hu s _
  have huul_t : noUUL u (Char.ofNat 0 :: tcLoop u (Char.ofNat 0) s) := tcLoop_noUUL hu s _
  obtain ⟨t1, t2, hdec⟩ := trimSpace_decomp (tcLoop u (Char.ofNat 0) s)
  have hlu_m : noLU u (trimSpace (tcLoop u (Char.ofNat 0) s)) :=
    noLU_append_left hu _ t2 (noLU_append_right t1 _ (hdec ▸ hlu_t.2))
  have huul_m : noUUL u (trimSpace (tcLoop u (Char.ofNat 0) s)) :=
    noUUL_append_left hu _ t2 (noUUL_append_right t1 _ (hdec ▸ huul_t.2))
  have hchars_m : charsOK u (trimSpace (tcLoop u (Char.ofNat 0) s)) := by
    intro x hx
    exact hchars_t x (by rw [hdec]; simp [hx])
  have hchars_F : charsOK u (collapseWS (trimSpace (tcLoop u (Char.ofNat 0) s))) :=
    collapseGo_charsOK _ false hchars_m
  have hlu_F : noLU u (collapseWS (trimSpace (tcLoop u (Char.ofNat 0) s))) :=
    collapseGo_noLU hu _ false hlu_m
  have huul_F : noUUL u (collapseWS (trimSpace (tcLoop u (Char.ofNat 0) s))) :=
    collapseGo_noUUL hu _ false huul_m
  have hnt_F : noTrailWS (collapseWS (trimSpace (tcLoop u (Char.ofNat 0) s))) :=
    collapseGo_noTrailWS _ false (trimSpace_noTrailWS _)
  have hcol_F : collapsed (collapseWS (trimSpace (tcLoop u (Char.ofNat 0) s))) :=
    collapseGo_collapsed _ false
  have step1 : tcLoop u (Char.ofNat 0) (collapseWS (trimSpace (tcLoop u (Char.ofNat 0) s))) =
      collapseWS (trimSpace (tcLoop u (Char.ofNat 0) s)) := by
    refine tcLoop_fixed hu _ (Char.ofNat 0) hchars_F ⟨?_, hlu_F⟩ ⟨?_, huul_F⟩
    · rintro ⟨h1, _⟩
      rw [hu.zero_lower] at h1
      exact Bool.false_ne_true h1
    · rintro ⟨h1, _⟩
      rw [hu.zero_upper] at h1
      exact Bool.false_ne_true h1
  have step2 : trimSpace (collapseWS (trimSpace (tcLoop u (Char.ofNat 0) s))) =
      collapseWS (trimSpace (tcLoop u (Char.ofNat 0) s)) := by
    have hdw : (collapseWS (trimSpace (tcLoop u (Char.ofNat 0) s))).dropWhile isSpace =
        collapseWS (trimSpace (tcLoop u (Char.ofNat 0) s)) := by
      cases hm2 : trimSpace (tcLoop u (Char.ofNat 0) s) with
      | nil => rfl
      | cons cm rm =>
        have hcm : isSpace cm = false := trimSpace_head_not_space _ cm rm hm2
        have hg : goWS cm = false := by
          cases hgw : goWS cm
          · rfl
          · exact absurd (goWS_isSpace cm hgw) (by simp [hcm])
        unfold collapseWS
        rw [collapseGo_cons_not_ws false cm rm hg]
        simp [List.dropWhile_cons, hcm]
    exact trimSpace_eq_of _ hdw hnt_F
  have step3 : collapseWS (collapseWS (trimSpace (tcLoop u (Char.ofNat 0) s))) =
      collapseWS (trimSpace (tcLoop u (Char.ofNat 0) s)) :=
    (collapsed_fix _ hcol_F).1
  show collapseWS (trimSpace (tcLoop u (Char.ofNat 0)
    (collapseWS (trimSpace (tcLoop u (Char.ofNat 0) s))))) = _
  rw [step1, step2, step3]
  rfl

/-- C9: `titleCase` is a pure function of its input and is idempotent:
for every classifier satisfying the facts of the Unicode tables
(`UniSound`) and every input string, applying `titleCase` twice gives
the same result as applying it once. -/
theorem titleCase_idempotent (u : Uni) (hu : UniSound u) (s : String) :
    titleCaseStr u (titleCaseStr u s) = titleCaseStr u s :=
  congrArg String.mk (titleCase_idem_list hu s.data)

theorem asciiUni_sound : UniSound asciiUni := by
  refine ⟨?_, ?_, ?_, by decide, ?_⟩
  · intro c h
    simp only [asciiUni, Bool.and_eq_true, Bool.or_eq_true, decide_eq_true_eq] at h ⊢
    exact Or.inr h
  · intro c h
    simp only [asciiUni, Bool.and_eq_true, Bool.or_eq_true, decide_eq_true_eq] at h ⊢
    exact Or.inl h
  · intro c h
    simp only [isSpace, Bool.or_eq_true, Bool.and_eq_true, decide_eq_true_eq] at h
    simp only [asciiUni, Bool.or_eq_false_iff, Bool.and_eq_false_iff]
    rcases h with (((((((((((((rfl | rfl) | rfl) | rfl) | rfl) | rfl) | rfl) | rfl) | rfl) |
        hr) | rfl) | rfl) | rfl) | rfl) | rfl
    all_goals try decide
    constructor
    · cases hAc : decide ('A' ≤ c)
      · exact Or.inl (by simp [hAc])
      · refine Or.inr ?_
        cases hcz : decide (c ≤ 'Z')
        · rfl
        · have h1 : Char.ofNat 0x2000 ≤ c := hr.1
          have h2 : c ≤ 'Z' := of_decide_eq_true hcz
          exact absurd (le_trans h1 h2) (by decide)
    · cases hac : decide ('a' ≤ c)
      · exact Or.inl (by simp [hac])
      · refine Or.inr ?_
        cases hcz : decide (c ≤ 'z')
        · rfl
        · have h1 : Char.ofNat 0x2000 ≤ c := hr.1
          have h2 : c ≤ 'z' := of_decide_eq_true hcz
          exact absurd (le_trans h1 h2) (by decide)
  · rintro c ⟨h1, h2⟩
    simp only [asciiUni, Bool.and_eq_true, decide_eq_true_eq] at h1 h2
    exact absurd (le_trans h1.1 h2.2) (by decide)

/-- C9 witness: idempotence at the ASCII classifier on a concrete
input. -/
theorem titleCase_idempotent_witness :
    titleCaseStr asciiUni (titleCaseStr asciiUni "myFontName123") =
      titleCaseStr asciiUni "myFontName123" :=
  titleCase_idempotent asciiUni asciiUni_sound "myFontName123"
